import Mathlib

set_option linter.unusedSectionVars false

/-!
Verification of the FROST core (okx/frost): a shallow embedding of
src/frost-core/src/frost.rs (generic over a ciphersuite) and of the
ecGFp5/Poseidon-256 ciphersuite from src/frost-ecgfp5/src/lib.rs,
together with theorems settling the frozen claims about the spec.

Conventions of the embedding:
- machine bytes are modelled as Nat (values below 256 where they arise
  from serializers), byte strings as List Nat;
- the scalar field F and the group E are type parameters (the Rust code
  is generic over a Ciphersuite trait); the group is written additively,
  scalar multiplication of a point is the Module smul;
- Rust Result<T, &'static str> together with possible panics is modelled
  by the Outcome type below: ok, err (an Err with its message string),
  panic (an unwrap or index panic, labelled by its site).
-/

namespace Frost

/-- Little-endian base-256 encoding of a natural number into w bytes. -/
def leBytes : Nat → Nat → List Nat
  | 0, _ => []
  | w + 1, x => (x % 256) :: leBytes w (x / 256)

/-- Reads a little-endian base-256 byte list back into a natural number. -/
def fromLeBytes : List Nat → Nat
  | [] => 0
  | b :: l => b + 256 * fromLeBytes l

/-- Bytes of a string literal, as the list of code points of its
characters (the tag strings in the source are ASCII). -/
def strBytes (s : String) : List Nat := s.data.map Char.toNat

theorem leBytes_length (w x : Nat) : (leBytes w x).length = w := by
  induction w generalizing x with
  | zero => rfl
  | succ w ih => simp [leBytes, ih]

theorem fromLeBytes_leBytes (w x : Nat) : fromLeBytes (leBytes w x) = x % 256 ^ w := by
  induction w generalizing x with
  | zero => simp [leBytes, fromLeBytes, Nat.mod_one]
  | succ w ih =>
      have h : 256 ^ (w + 1) = 256 * 256 ^ w := by ring
      simp [leBytes, fromLeBytes, ih, h, Nat.mod_mul]

theorem fromLeBytes_leBytes_of_lt {w x : Nat} (h : x < 256 ^ w) :
    fromLeBytes (leBytes w x) = x := by
  rw [fromLeBytes_leBytes, Nat.mod_eq_of_lt h]

/-- Outcome of running a Rust function returning Result<α, &'static str>:
either Ok, or Err with the message, or a panic labelled by its site. -/
inductive Outcome (α : Type) where
  | ok (a : α)
  | err (e : String)
  | panic (site : String)
deriving DecidableEq

/-- SigningCommitments from round1 (struct fields as used by frost.rs:
a participant index, the hiding commitment D and the binding commitment E). -/
structure SC (E : Type) where
  index : Nat
  hidingC : E
  bindingC : E
deriving DecidableEq

/-- Insertion of a commitment into a list sorted ascending by index,
placed before the first element of greater or equal index; one step of
the sort below. -/
def insertSorted {E : Type} (a : SC E) : List (SC E) → List (SC E)
  | [] => [a]
  | b :: l => if a.index ≤ b.index then a :: b :: l else b :: insertSorted a l

/-- Stable ascending sort by participant index; models
signing_commitments.sort_by_key(|a| a.index). Rust sort_by_key is
stable, and so is this sort: the foldr inserts elements right to left,
and insertSorted places each element before the equal-index elements
that follow it in the input, so equal-index commitments keep their
input order. -/
def sortByIndex {E : Type} (l : List (SC E)) : List (SC E) :=
  l.foldr insertSorted []

/-- Insertion into an association list kept strictly sorted by key, with
replacement on an equal key; models HashMap::insert (later values for a
key overwrite earlier ones), the map being represented canonically by
its key-sorted entry list. -/
def alInsert {V : Type} (k : Nat) (v : V) : List (Nat × V) → List (Nat × V)
  | [] => [(k, v)]
  | (k', v') :: m =>
      if k = k' then (k, v) :: m
      else if k < k' then (k, v) :: (k', v') :: m
      else (k', v') :: alInsert k v m

/-- Lookup in an association list; models HashMap::get. -/
def alLookup {V : Type} (k : Nat) : List (Nat × V) → Option V
  | [] => none
  | (k', v) :: m => if k = k' then some v else alLookup k m

/-- Collecting an iterator of (index, commitment) pairs into a HashMap;
models signing_commitments.into_iter().map(|s| (s.index, s)).collect(). -/
def mkMap {E : Type} (l : List (SC E)) : List (Nat × SC E) :=
  l.foldl (fun m s => alInsert s.index s m) []

/-- SigningPackage from frost.rs: the HashMap<u16, SigningCommitments>
(modelled as its canonical key-sorted entry list) and the message. -/
structure SigningPackage (E : Type) where
  signingCommitmentsMap : List (Nat × SC E)
  message : List Nat
deriving DecidableEq

/-- SigningPackage::new: sorts the vector by participant index (stable)
and collects it into the map keyed by index. -/
def SigningPackage.new {E : Type} (v : List (SC E)) (message : List Nat) :
    SigningPackage E :=
  { signingCommitmentsMap := mkMap (sortByIndex v), message := message }

/-- SigningPackage::signing_commitments: the map values, sorted
ascending by participant index. -/
def signingCommitments {E : Type} (pkg : SigningPackage E) : List (SC E) :=
  sortByIndex (pkg.signingCommitmentsMap.map Prod.snd)

/-- SigningPackage::signing_commitment: indexing the HashMap by a
participant index; none models the panic of HashMap Index on a missing
key. -/
def signingCommitment? {E : Type} (pkg : SigningPackage E) (i : Nat) :
    Option (SC E) :=
  alLookup i pkg.signingCommitmentsMap

/-- Ciphersuite capabilities consumed by frost.rs, as function-valued
fields: H1 and H2 hash byte strings to scalars, H3d gives the bytes that
C::H3(message).as_ref() contributes to the rho preimage, serI and serE
serialize an identifier and a group element, gen is the group generator. -/
structure CSuite (F E : Type) where
  H1 : List Nat → F
  H2 : List Nat → F
  H3d : List Nat → List Nat
  serI : Nat → List Nat
  serE : E → List Nat
  gen : E

/-- Modelled from the spec: round1::encode_group_commitments is part of
this repository but its file is not under src/; per the spec it is the
concatenation, in ascending identifier order of its input list, of
serialize(i) then serialize(D_i) then serialize(E_i) for each
commitment. -/
def encodeGroupCommitments {F E : Type} (cs : CSuite F E) (l : List (SC E)) :
    List Nat :=
  (l.map (fun c => cs.serI c.index ++ cs.serE c.hidingC ++ cs.serE c.bindingC)).flatten

/-- SigningPackage::rho_preimage: the encoding of the sorted commitment
list followed by the bytes of C::H3 of the message. -/
def rhoPreimage {F E : Type} (cs : CSuite F E) (pkg : SigningPackage E) :
    List Nat :=
  encodeGroupCommitments cs (signingCommitments pkg) ++ cs.H3d pkg.message

/-- Rho::from for a signing package: the binding factor H1 of the rho
preimage. -/
def rho {F E : Type} (cs : CSuite F E) (pkg : SigningPackage E) : F :=
  cs.H1 (rhoPreimage cs pkg)

section Lagrange

variable {F : Type} [Field F] [DecidableEq F] {E : Type}

/-- Field::invert: fails (InvalidZeroScalar) on zero, otherwise the
field inverse; for ecGFp5 this is Scalar::try_inverse wrapped in ok_or. -/
def fieldInvert (x : F) : Option F :=
  if x = 0 then none else some x⁻¹

/-- Identifier::try_from on a u16 index: fails for zero, otherwise the
scalar representation of the index. Modelled from the spec: the
identifier module is part of this repository but its file is not under
src/; per the spec construction fails with InvalidIdentifier for n = 0
and otherwise embeds n into the scalar field. -/
def identifierTryFrom (n : Nat) : Option F :=
  if n = 0 then none else some (n : F)

/-- Scan of the commitment list performed by the any-closure in
derive_lagrange_coeff: for each commitment in order, unwrap
Identifier::try_from of its index (a zero index panics the unwrap), and
if the resulting scalar is zero return Err Invalid parameters. -/
def scanCommitmentIds : List (SC E) → Outcome Unit
  | [] => .ok ()
  | c :: rest =>
      if c.index = 0 then .panic "unwrap: identifier"
      else if ((c.index : F)) = 0 then .err "Invalid parameters"
      else scanCommitmentIds rest

/-- derive_lagrange_coeff from frost.rs: unwraps the signer identifier
(panicking on zero), performs the redundant zero-scalar checks, folds
the numerator and denominator products over the sorted commitments
skipping the signer, errors on a zero denominator, and otherwise
multiplies the numerator by the unwrapped field inversion of the
denominator. -/
def deriveLagrangeCoeff (signerId : Nat) (pkg : SigningPackage E) : Outcome F :=
  if signerId = 0 then .panic "unwrap: identifier"
  else if ((signerId : F)) = 0 then .err "Invalid parameters"
  else
    match scanCommitmentIds (F := F) (signingCommitments pkg) with
    | .panic s => .panic s
    | .err s => .err s
    | .ok _ =>
        let others := (signingCommitments pkg).filter (fun c => c.index ≠ signerId)
        let num : F := others.foldl (fun acc c => acc * ((c.index : F))) 1
        let den : F := others.foldl (fun acc c => acc * ((c.index : F) - (signerId : F))) 1
        if den = 0 then .err "Duplicate shares provided"
        else
          match fieldInvert den with
          | some d => .ok (num * d)
          | none => .panic "unwrap: invert"

end Lagrange

section Aggregate

variable {F : Type} [Field F] [DecidableEq F]
variable {E : Type} [AddCommGroup E] [DecidableEq E] [Module F E]

/-- GroupCommitment is the accumulated group element; the Rust newtype
is modelled by the element itself, the group identity being 0. -/
def groupCommitmentAux (r : F) : List (SC E) → E → Outcome E
  | [], acc => .ok acc
  | c :: rest, acc =>
      if (0 : E) = c.bindingC ∨ (0 : E) = c.hidingC then
        .err "Commitment equals the identity."
      else groupCommitmentAux r rest (acc + (c.hidingC + r • c.bindingC))

/-- GroupCommitment::try_from for a signing package: computes rho, then
accumulates D_i + rho * E_i over the sorted commitments starting from
the identity, rejecting any commitment whose binding or hiding element
is the identity. -/
def groupCommitment (cs : CSuite F E) (pkg : SigningPackage E) : Outcome E :=
  groupCommitmentAux (rho cs pkg) (signingCommitments pkg) 0

/-- SignatureShare from round2, as used by frost.rs: the participant
index and the scalar z_share of its inner signature response. -/
structure SigShare (F : Type) where
  index : Nat
  zShare : F
deriving DecidableEq

/-- PublicKeyPackage from keys, as used by frost.rs: the map from
participant index to verifying share and the group public element. -/
structure PubKeyPackage (E : Type) where
  signerPubkeys : List (Nat × E)
  groupPublic : E
deriving DecidableEq

/-- Signature: the group commitment R and the aggregated response z. -/
structure Signature (F E : Type) where
  R : E
  z : F
deriving DecidableEq

/-- Modelled from the spec: crate::challenge lives in the frost-core
lib file, which is not under src/; per the spec the challenge is
H2(serialize(R) then serialize(Y) then the message). -/
def challenge (cs : CSuite F E) (R Y : E) (msg : List Nat) : F :=
  cs.H2 (cs.serE R ++ cs.serE Y ++ msg)

/-- Modelled from the spec: SigningCommitments::to_group_commitment_share
lives in round1, which is not under src/; per the spec the commitment
share of a participant is R_i = D_i + rho * E_i. -/
def toGroupCommitmentShare (r : F) (c : SC E) : E :=
  c.hidingC + r • c.bindingC

/-- Modelled from the spec: SignatureShare::verify lives in round2,
which is not under src/; per the spec it checks
z_i * B == R_i + (c * lambda_i) * Y_i and reports a failing share. -/
def shareVerifies (cs : CSuite F E) (sh : SigShare F) (Rshare : E) (Yi : E)
    (lambda : F) (c : F) : Prop :=
  sh.zShare • cs.gen = Rshare + (c * lambda) • Yi

instance (cs : CSuite F E) (sh : SigShare F) (Rshare Yi : E) (lambda c : F) :
    Decidable (shareVerifies cs sh Rshare Yi lambda c) := by
  unfold shareVerifies; infer_instance

/-- Share verification loop of aggregate: for each signature share in
order, look up the signer verifying share (the unwrap panics when the
identifier is absent from the public key package), derive the Lagrange
coefficient, index the package map for the commitment of the share (a
missing key panics), and check the verification equation. -/
def verifySharesLoop (cs : CSuite F E) (r c : F) (pkg : SigningPackage E)
    (pks : PubKeyPackage E) : List (SigShare F) → Outcome Unit
  | [] => .ok ()
  | sh :: rest =>
      match alLookup sh.index pks.signerPubkeys with
      | none => .panic "unwrap: signer_pubkey"
      | some Yi =>
          match deriveLagrangeCoeff (F := F) sh.index pkg with
          | .panic s => .panic s
          | .err s => .err s
          | .ok lambda =>
              match signingCommitment? pkg sh.index with
              | none => .panic "index: signing_commitment"
              | some comm =>
                  if shareVerifies cs sh (toGroupCommitmentShare r comm) Yi lambda c
                  then verifySharesLoop cs r c pkg pks rest
                  else .err "Invalid signature share"

/-- aggregate from frost.rs: computes rho and the group commitment,
derives the challenge from R, the group public key and the message,
verifies every signature share, and sums the z shares into the final
signature. -/
def aggregate (cs : CSuite F E) (pkg : SigningPackage E)
    (shares : List (SigShare F)) (pks : PubKeyPackage E) :
    Outcome (Signature F E) :=
  let r : F := rho cs pkg
  match groupCommitment cs pkg with
  | .err e => .err e
  | .panic s => .panic s
  | .ok R =>
      let c := challenge cs R pks.groupPublic pkg.message
      match verifySharesLoop cs r c pkg pks shares with
      | .err e => .err e
      | .panic s => .panic s
      | .ok _ => .ok { R := R, z := shares.foldl (fun z sh => z + sh.zShare) 0 }

end Aggregate

end Frost

namespace EcGFp5

open Frost

/-- FieldError from frost-core, as used by the ecGFp5 ciphersuite. -/
inductive FieldError where
  | InvalidZeroScalar
  | MalformedScalar
deriving DecidableEq

/-- GroupError from frost-core, as used by the ecGFp5 ciphersuite. -/
inductive GroupError where
  | InvalidIdentityElement
  | MalformedElement
deriving DecidableEq

/-- Order of the prime group of the ecGFp5 curve, which is the order of
the scalar field of the ciphersuite (a 319 bit prime). -/
def ecGFp5Order : Nat :=
  1067993516717146951041484916571792702745057740581727230159139685185762082554198619328292418486241

/-- Scalars of the ecGFp5 ciphersuite, modelled as integers modulo the
group order; the external scalar arithmetic library is out of scope, its
canonical representation is a residue below the order. -/
abbrev EcScalar : Type := ZMod ecGFp5Order

/-- EcGFp5ScalarField::serialize: the canonical 40 byte little-endian
encoding of the scalar (Scalar::encode of the external library). -/
def scalarSerialize (x : EcScalar) : List Nat := leBytes 40 x.val

/-- EcGFp5ScalarField::deserialize: Scalar::from_canonical_bytes, which
reads 40 little-endian bytes and rejects any non-canonical value, mapped
to MalformedScalar by ok_or as in src/frost-ecgfp5/src/lib.rs. -/
def scalarDeserialize (buf : List Nat) : Except FieldError EcScalar :=
  if buf.length = 40 ∧ fromLeBytes buf < ecGFp5Order then
    .ok ((fromLeBytes buf : Nat) : EcScalar)
  else .error FieldError.MalformedScalar

/-- Modulus of the Goldilocks base field, whose five canonical limbs
form the 40 byte encoding of a curve point. -/
def goldilocksP : Nat := 2 ^ 64 - 2 ^ 32 + 1

/-- Modelled from the spec: curve points and their codec live in the
external plonky2_ecgfp5 library, out of scope for this repository; a
point is modelled by its canonical w-coordinate encoding, five Goldilocks
limbs each below the Goldilocks modulus, the neutral point having all
limbs zero. Curve-membership validation of a limb vector is internal to
the external library and is elided: every canonical limb vector is
treated as the encoding of a point. -/
def EcPoint : Type := { l : List Nat // l.length = 5 ∧ l.all (fun x => x < goldilocksP) }

instance : DecidableEq EcPoint := Subtype.instDecidableEq

/-- Point::NEUTRAL of the external library: all limbs zero. -/
def neutralPoint : EcPoint := ⟨[0, 0, 0, 0, 0], by decide⟩

/-- Point::is_neutral of the external library. -/
def isNeutral (p : EcPoint) : Bool := p.val = [0, 0, 0, 0, 0]

/-- Point::to_le_bytes of the external library: each limb in 8
little-endian bytes, low limb first. -/
def pointToLeBytes (p : EcPoint) : List Nat :=
  (p.val.map (leBytes 8)).flatten

/-- Reads k Goldilocks limbs of 8 little-endian bytes each, rejecting a
byte string of the wrong length or a non-canonical limb. -/
def readLimbs : Nat → List Nat → Option (List Nat)
  | 0, [] => some []
  | 0, _ :: _ => none
  | k + 1, bytes =>
      if bytes.length < 8 then none
      else
        let limb := fromLeBytes (bytes.take 8)
        if limb < goldilocksP then
          match readLimbs k (bytes.drop 8) with
          | some rest => some (limb :: rest)
          | none => none
        else none

theorem readLimbs_length {k : Nat} {bytes limbs : List Nat}
    (h : readLimbs k bytes = some limbs) : limbs.length = k := by
  induction k generalizing bytes limbs with
  | zero =>
      cases bytes with
      | nil => simp [readLimbs] at h; simp [← h]
      | cons b l => simp [readLimbs] at h
  | succ k ih =>
      simp only [readLimbs] at h
      split at h
      · exact absurd h (by simp)
      · split at h
        · split at h
          · next rest hrest =>
              cases h
              simp [ih hrest]
          · exact absurd h (by simp)
        · exact absurd h (by simp)

theorem readLimbs_all_lt {k : Nat} {bytes limbs : List Nat}
    (h : readLimbs k bytes = some limbs) : ∀ x ∈ limbs, x < goldilocksP := by
  induction k generalizing bytes limbs with
  | zero =>
      cases bytes with
      | nil =>
          simp only [readLimbs, Option.some.injEq] at h
          subst h
          intro x hx
          simp at hx
      | cons b l => simp [readLimbs] at h
  | succ k ih =>
      simp only [readLimbs] at h
      split at h
      · exact absurd h (by simp)
      · split at h
        · split at h
          · next rest hrest =>
              cases h
              intro x hx
              rcases List.mem_cons.mp hx with hx | hx
              · subst hx; assumption
              · exact ih hrest x hx
          · exact absurd h (by simp)
        · exact absurd h (by simp)

/-- Point::from_le_bytes of the external library, under the same
modelling as EcPoint: decode five canonical limbs from exactly 40 bytes. -/
def pointFromLeBytes (bytes : List Nat) : Option EcPoint :=
  if hlen : bytes.length = 40 then
    match hr : readLimbs 5 bytes with
    | some limbs =>
        some ⟨limbs, by
          refine ⟨readLimbs_length hr, ?_⟩
          have := readLimbs_all_lt hr
          simpa [List.all_eq_true] using fun x hx => this x hx⟩
    | none => none
  else none

/-- EcGFp5Group::serialize from src/frost-ecgfp5/src/lib.rs. -/
def groupSerialize (p : EcPoint) : List Nat := pointToLeBytes p

/-- EcGFp5Group::deserialize from src/frost-ecgfp5/src/lib.rs: decode
the point, reject the neutral point with InvalidIdentityElement, reject
undecodable bytes with MalformedElement. -/
def groupDeserialize (buf : List Nat) : Except GroupError EcPoint :=
  match pointFromLeBytes buf with
  | some p =>
      if isNeutral p then .error GroupError.InvalidIdentityElement
      else .ok p
  | none => .error GroupError.MalformedElement

/-- CONTEXT_STRING of the ciphersuite from src/frost-ecgfp5/src/lib.rs. -/
def contextString : String := "FROST-ECGFP5-POSEIDON256-v1"

/-- Modelled from the spec: the Poseidon hash_to_scalar of the external
plonky2_ecgfp5 library is out of scope; in this symbolic model a hash
output is represented by the formal byte string tag then input, which
keeps exactly the domain-separation structure that
src/frost-ecgfp5/src/lib.rs passes to it. Symbolic scalars are byte
strings. -/
def hashToScalarSym (tag m : List Nat) : List Nat := tag ++ m

/-- Modelled from the spec: Poseidon hash_pad of the external library is
out of scope; hash_to_array concatenates its input slices and hashes, so
its symbolic output is the flattened input. -/
def hashToArraySym (parts : List (List Nat)) : List Nat := parts.flatten

/-- EcGFp5Poseidon256::H5 under the symbolic hash model: the com tagged
digest hash_to_array(&[CONTEXT_STRING, b"com", m]) of
src/frost-ecgfp5/src/lib.rs. -/
def H5sym (m : List Nat) : List Nat :=
  hashToArraySym [strBytes contextString, strBytes "com", m]

/-- The ecGFp5 ciphersuite under the symbolic hash model, with symbolic
scalars (byte strings) and symbolic group elements (naturals): H1 is the
rho tagged hash_to_scalar, H2 the chal tagged one, and H3d the bytes
contributed by the nonce tagged H3 of the message, all as in
src/frost-ecgfp5/src/lib.rs; serializers are the 40 byte little-endian
encodings described by the spec. -/
def csSym : Frost.CSuite (List Nat) Nat :=
  { H1 := fun m => hashToScalarSym (strBytes (contextString ++ "rho")) m
  , H2 := fun m => hashToScalarSym (strBytes (contextString ++ "chal")) m
  , H3d := fun m => hashToScalarSym (strBytes (contextString ++ "nonce")) m
  , serI := fun n => Frost.leBytes 40 n
  , serE := fun e => Frost.leBytes 40 e
  , gen := 1 }

/-- Binding factor that claim C1 asserts: H1 applied to the encoded
commitment list followed by the com tagged digest H5 of the message
(this definition follows the words of the spec, for comparison with the
rho computed by the code). -/
def rhoSpecH5 (pkg : Frost.SigningPackage Nat) : List Nat :=
  csSym.H1 (Frost.encodeGroupCommitments csSym (Frost.signingCommitments pkg) ++
    H5sym pkg.message)

end EcGFp5

namespace Frost

instance : Fact (Nat.Prime 65537) := ⟨by norm_num⟩

instance : Fact (Nat.Prime 97) := ⟨by norm_num⟩

/-- Small prime scalar field used to evaluate the generic embedding on
concrete inputs: its characteristic exceeds every u16 participant index,
as does the characteristic of the real ecGFp5 scalar field. -/
abbrev Ft : Type := ZMod 65537

/-- Concrete ciphersuite instance over the small field, with the group
taken to be the additive group of the field itself; the hash and
serializer fields are simple total functions, which suffices because the
claims evaluated with it do not depend on their values. -/
def csTest : CSuite Ft Ft :=
  { H1 := fun m => ((fromLeBytes m : Nat) : Ft)
  , H2 := fun m => ((fromLeBytes m : Nat) : Ft)
  , H3d := fun m => m
  , serI := fun n => [n % 256]
  , serE := fun e => [e.val % 256]
  , gen := 1 }

section SortLemmas

variable {E : Type}

theorem insertSorted_perm (a : SC E) (l : List (SC E)) :
    (insertSorted a l).Perm (a :: l) := by
  induction l with
  | nil => simp [insertSorted]
  | cons b t ih =>
      by_cases h : a.index ≤ b.index
      · simp [insertSorted, h]
      · simp only [insertSorted, if_neg h]
        exact (ih.cons b).trans (List.Perm.swap a b t)

theorem sortByIndex_perm (l : List (SC E)) : (sortByIndex l).Perm l := by
  induction l with
  | nil => simp [sortByIndex]
  | cons a t ih =>
      exact (insertSorted_perm a (sortByIndex t)).trans (ih.cons a)

theorem insertSorted_pairwise {a : SC E} {l : List (SC E)}
    (h : l.Pairwise (fun x y => x.index ≤ y.index)) :
    (insertSorted a l).Pairwise (fun x y => x.index ≤ y.index) := by
  induction l with
  | nil => simp [insertSorted]
  | cons b t ih =>
      rcases List.pairwise_cons.mp h with ⟨hb, ht⟩
      by_cases hab : a.index ≤ b.index
      · simp only [insertSorted, if_pos hab]
        refine List.pairwise_cons.mpr ⟨?_, h⟩
        intro x hx
        rcases List.mem_cons.mp hx with rfl | hx
        · exact hab
        · exact Nat.le_trans hab (hb x hx)
      · simp only [insertSorted, if_neg hab]
        refine List.pairwise_cons.mpr ⟨?_, ih ht⟩
        intro x hx
        rcases List.mem_cons.mp ((insertSorted_perm a t).mem_iff.mp hx) with rfl | hx
        · omega
        · exact hb x hx

theorem sortByIndex_pairwise (l : List (SC E)) :
    (sortByIndex l).Pairwise (fun x y => x.index ≤ y.index) := by
  induction l with
  | nil => simp [sortByIndex]
  | cons a t ih => exact insertSorted_pairwise ih

theorem sortByIndex_eq_self {l : List (SC E)}
    (h : l.Pairwise (fun x y => x.index < y.index)) : sortByIndex l = l := by
  induction l with
  | nil => rfl
  | cons a t ih =>
      rcases List.pairwise_cons.mp h with ⟨ha, ht⟩
      show insertSorted a (sortByIndex t) = a :: t
      rw [ih ht]
      cases t with
      | nil => rfl
      | cons b t' =>
          simp [insertSorted, Nat.le_of_lt (ha b (List.mem_cons_self b t'))]

end SortLemmas

section AListLemmas

variable {V : Type}

theorem mem_alInsert {p : Nat × V} {k : Nat} {v : V} {m : List (Nat × V)}
    (h : p ∈ alInsert k v m) : p = (k, v) ∨ p ∈ m := by
  induction m with
  | nil => simpa [alInsert] using h
  | cons q m ih =>
      obtain ⟨k', v'⟩ := q
      simp only [alInsert] at h
      split at h
      · rcases List.mem_cons.mp h with rfl | h
        · exact Or.inl rfl
        · exact Or.inr (List.mem_cons_of_mem _ h)
      · split at h
        · rcases List.mem_cons.mp h with rfl | h
          · exact Or.inl rfl
          · exact Or.inr h
        · rcases List.mem_cons.mp h with rfl | h
          · exact Or.inr (List.mem_cons_self _ _)
          · rcases ih h with h | h
            · exact Or.inl h
            · exact Or.inr (List.mem_cons_of_mem _ h)

theorem keys_alInsert (k : Nat) (v : V) (m : List (Nat × V)) (k' : Nat) :
    k' ∈ (alInsert k v m).map Prod.fst ↔ k' = k ∨ k' ∈ m.map Prod.fst := by
  induction m with
  | nil => simp [alInsert]
  | cons q m ih =>
      obtain ⟨k0, v0⟩ := q
      simp only [alInsert]
      split
      · next heq =>
          subst heq
          simp only [List.map_cons, List.mem_cons]
          try tauto
      · split
        · simp only [List.map_cons, List.mem_cons]
          try tauto
        · simp only [List.map_cons, List.mem_cons]
          rw [ih]
          tauto

theorem alInsert_pairwise {k : Nat} {v : V} {m : List (Nat × V)}
    (h : m.Pairwise (fun p q => p.1 < q.1)) :
    (alInsert k v m).Pairwise (fun p q => p.1 < q.1) := by
  induction m with
  | nil => simp [alInsert]
  | cons q m ih =>
      obtain ⟨k0, v0⟩ := q
      rcases List.pairwise_cons.mp h with ⟨h0, hm⟩
      simp only [alInsert]
      split
      · next heq =>
          subst heq
          exact List.pairwise_cons.mpr ⟨h0, hm⟩
      · next hne =>
          split
          · next hlt =>
              refine List.pairwise_cons.mpr ⟨?_, h⟩
              intro p hp
              rcases List.mem_cons.mp hp with rfl | hp
              · exact hlt
              · exact Nat.lt_trans hlt (h0 p hp)
          · next hge =>
              refine List.pairwise_cons.mpr ⟨?_, ih hm⟩
              intro p hp
              rcases mem_alInsert hp with rfl | hp
              · exact Nat.lt_of_le_of_ne (Nat.le_of_not_lt hge) (Ne.symm hne)
              · exact h0 p hp

theorem alInsert_cons_eq {k k' : Nat} (h : k = k') (v v' : V)
    (m : List (Nat × V)) : alInsert k v ((k', v') :: m) = (k, v) :: m := by
  simp [alInsert, h]

theorem alInsert_cons_lt {k k' : Nat} (h : k < k') (v v' : V)
    (m : List (Nat × V)) :
    alInsert k v ((k', v') :: m) = (k, v) :: (k', v') :: m := by
  simp [alInsert, h, Nat.ne_of_lt h]

theorem alInsert_cons_gt {k k' : Nat} (h : k' < k) (v v' : V)
    (m : List (Nat × V)) :
    alInsert k v ((k', v') :: m) = (k', v') :: alInsert k v m := by
  simp [alInsert, Nat.not_lt_of_gt h, (Nat.ne_of_lt h).symm]

theorem alInsert_comm {k1 k2 : Nat} (hne : k1 ≠ k2) (v1 v2 : V)
    (m : List (Nat × V)) :
    alInsert k1 v1 (alInsert k2 v2 m) = alInsert k2 v2 (alInsert k1 v1 m) := by
  induction m with
  | nil =>
      show alInsert k1 v1 [(k2, v2)] = alInsert k2 v2 [(k1, v1)]
      rcases Nat.lt_or_ge k1 k2 with h | h
      · rw [alInsert_cons_lt h, alInsert_cons_gt h]
        show _ = (k1, v1) :: alInsert k2 v2 []
        rfl
      · have h : k2 < k1 := Nat.lt_of_le_of_ne h (Ne.symm hne)
        rw [alInsert_cons_gt h, alInsert_cons_lt h]
        show (k2, v2) :: alInsert k1 v1 [] = _
        rfl
  | cons q m ih =>
      obtain ⟨k', v'⟩ := q
      rcases Nat.lt_trichotomy k2 k' with hB | hA | hC
      · rw [alInsert_cons_lt hB]
        rcases Nat.lt_trichotomy k1 k2 with h1 | h1 | h1
        · rw [alInsert_cons_lt h1, alInsert_cons_lt (Nat.lt_trans h1 hB),
            alInsert_cons_gt h1, alInsert_cons_lt hB]
        · exact absurd h1 hne
        · rw [alInsert_cons_gt h1]
          rcases Nat.lt_trichotomy k1 k' with h2 | h2 | h2
          · rw [alInsert_cons_lt h2, alInsert_cons_lt h1]
          · rw [alInsert_cons_eq h2, alInsert_cons_lt h1]
          · rw [alInsert_cons_gt h2, alInsert_cons_lt hB]
      · subst hA
        rw [alInsert_cons_eq rfl]
        rcases Nat.lt_or_ge k1 k2 with h1 | h1
        · rw [alInsert_cons_lt h1, alInsert_cons_lt h1,
            alInsert_cons_gt h1, alInsert_cons_eq rfl]
        · have h1 : k2 < k1 := Nat.lt_of_le_of_ne h1 (Ne.symm hne)
          rw [alInsert_cons_gt h1, alInsert_cons_gt h1, alInsert_cons_eq rfl]
      · rw [alInsert_cons_gt hC]
        rcases Nat.lt_trichotomy k1 k' with h1 | h1 | h1
        · rw [alInsert_cons_lt h1, alInsert_cons_lt h1,
            alInsert_cons_gt (Nat.lt_trans h1 hC), alInsert_cons_gt hC]
        · rw [alInsert_cons_eq h1, alInsert_cons_eq h1,
            alInsert_cons_gt (show k1 < k2 by omega)]
        · rw [alInsert_cons_gt h1, alInsert_cons_gt h1, alInsert_cons_gt hC, ih]

end AListLemmas

section MapLemmas

variable {E : Type}

theorem foldl_alInsert_pairwise (l : List (SC E)) (m : List (Nat × SC E))
    (h : m.Pairwise (fun p q => p.1 < q.1)) :
    (l.foldl (fun m s => alInsert s.index s m) m).Pairwise
      (fun p q => p.1 < q.1) := by
  induction l generalizing m with
  | nil => exact h
  | cons s l ih => exact ih _ (alInsert_pairwise h)

theorem mkMap_pairwise (l : List (SC E)) :
    (mkMap l).Pairwise (fun p q => p.1 < q.1) :=
  foldl_alInsert_pairwise l [] (by simp)

theorem foldl_alInsert_snd_index (l : List (SC E)) (m : List (Nat × SC E))
    (h : ∀ p ∈ m, p.2.index = p.1) :
    ∀ p ∈ l.foldl (fun m s => alInsert s.index s m) m, p.2.index = p.1 := by
  induction l generalizing m with
  | nil => exact h
  | cons s l ih =>
      refine ih _ ?_
      intro p hp
      rcases mem_alInsert hp with rfl | hp
      · rfl
      · exact h p hp

theorem mkMap_snd_index (l : List (SC E)) : ∀ p ∈ mkMap l, p.2.index = p.1 :=
  foldl_alInsert_snd_index l [] (by simp)

theorem foldl_alInsert_val_mem (l : List (SC E)) (m : List (Nat × SC E)) :
    ∀ p ∈ l.foldl (fun m s => alInsert s.index s m) m, p.2 ∈ l ∨ p ∈ m := by
  induction l generalizing m with
  | nil => exact fun p hp => Or.inr hp
  | cons s l ih =>
      intro p hp
      rcases ih _ p hp with h | h
      · exact Or.inl (List.mem_cons_of_mem _ h)
      · rcases mem_alInsert h with rfl | h
        · exact Or.inl (List.mem_cons_self _ _)
        · exact Or.inr h

theorem mkMap_val_mem (l : List (SC E)) : ∀ p ∈ mkMap l, p.2 ∈ l := by
  intro p hp
  rcases foldl_alInsert_val_mem l [] p hp with h | h
  · exact h
  · simp at h

theorem foldl_alInsert_keys (l : List (SC E)) (m : List (Nat × SC E)) (k : Nat) :
    k ∈ (l.foldl (fun m s => alInsert s.index s m) m).map Prod.fst ↔
      k ∈ l.map SC.index ∨ k ∈ m.map Prod.fst := by
  induction l generalizing m with
  | nil => simp
  | cons s l ih =>
      rw [List.foldl_cons, ih, keys_alInsert]
      simp only [List.map_cons, List.mem_cons]
      tauto

theorem mkMap_keys (l : List (SC E)) (k : Nat) :
    k ∈ (mkMap l).map Prod.fst ↔ k ∈ l.map SC.index := by
  rw [mkMap, foldl_alInsert_keys]
  simp

theorem alInsert_eq_append {V : Type} {k : Nat} {v : V} {m : List (Nat × V)}
    (h : ∀ p ∈ m, p.1 < k) : alInsert k v m = m ++ [(k, v)] := by
  induction m with
  | nil => rfl
  | cons p m ih =>
      obtain ⟨k0, v0⟩ := p
      have hk : k0 < k := h (k0, v0) (List.mem_cons_self _ _)
      rw [alInsert_cons_gt hk, ih (fun q hq => h q (List.mem_cons_of_mem _ hq))]
      rfl

theorem foldl_alInsert_strict :
    ∀ (l : List (SC E)) (m : List (Nat × SC E)),
      l.Pairwise (fun a b => a.index < b.index) →
      (∀ p ∈ m, ∀ s ∈ l, p.1 < s.index) →
      l.foldl (fun m s => alInsert s.index s m) m
        = m ++ l.map (fun s => (s.index, s)) := by
  intro l
  induction l with
  | nil => intro m _ _; simp
  | cons s l ih =>
      intro m h hm
      rcases List.pairwise_cons.mp h with ⟨hs, hl⟩
      rw [List.foldl_cons,
        alInsert_eq_append (fun p hp => hm p hp s (List.mem_cons_self _ _)),
        ih _ hl ?_]
      · simp
      · intro p hp t ht
        rcases List.mem_append.mp hp with hp | hp
        · exact hm p hp t (List.mem_cons_of_mem _ ht)
        · have hps : p = (s.index, s) := by simpa using hp
          rw [hps]
          exact hs t ht

theorem mkMap_of_strictSorted {l : List (SC E)}
    (h : l.Pairwise (fun a b => a.index < b.index)) :
    mkMap l = l.map (fun s => (s.index, s)) := by
  have h2 := foldl_alInsert_strict l [] h (by simp)
  simpa [mkMap] using h2

theorem map_snd_pairwise {M : List (Nat × SC E)}
    (hps : M.Pairwise (fun p q => p.1 < q.1))
    (hidx : ∀ p ∈ M, p.2.index = p.1) :
    (M.map Prod.snd).Pairwise (fun a b => a.index < b.index) := by
  rw [List.pairwise_map]
  refine hps.imp_of_mem ?_
  intro p q hp hq hlt
  rw [hidx p hp, hidx q hq]
  exact hlt

theorem signingCommitments_eq_values {M : List (Nat × SC E)} {msg : List Nat}
    (hps : M.Pairwise (fun p q => p.1 < q.1))
    (hidx : ∀ p ∈ M, p.2.index = p.1) :
    signingCommitments ⟨M, msg⟩ = M.map Prod.snd :=
  sortByIndex_eq_self (map_snd_pairwise hps hidx)

theorem mkMap_sort_perm_eq {v v' : List (SC E)} (hp : v.Perm v')
    (hnd : (v.map SC.index).Nodup) :
    mkMap (sortByIndex v) = mkMap (sortByIndex v') := by
  have hperm : (sortByIndex v).Perm (sortByIndex v') :=
    (sortByIndex_perm v).trans (hp.trans (sortByIndex_perm v').symm)
  have hpw : v.Pairwise (fun a b => a.index ≠ b.index) :=
    List.pairwise_map.mp hnd
  have hforall : ∀ x ∈ v, ∀ y ∈ v, x ≠ y → x.index ≠ y.index :=
    hpw.forall (fun a b h => h.symm)
  exact hperm.foldl_eq' (by
    intro x hx y hy m
    by_cases hxy : x = y
    · rw [hxy]
    · have hx' : x ∈ v := (sortByIndex_perm v).mem_iff.mp hx
      have hy' : y ∈ v := (sortByIndex_perm v).mem_iff.mp hy
      exact alInsert_comm (hforall y hy' x hx' (Ne.symm hxy)) y x m) []

end MapLemmas

section GroupCommitmentLemmas

variable {F : Type} [Field F] [DecidableEq F]
variable {E : Type} [AddCommGroup E] [DecidableEq E] [Module F E]

theorem groupCommitmentAux_eq (r : F) (l : List (SC E)) (acc : E) :
    groupCommitmentAux r l acc =
      if ∃ c ∈ l, c.hidingC = 0 ∨ c.bindingC = 0 then
        Outcome.err "Commitment equals the identity."
      else Outcome.ok (acc + (l.map (fun c => c.hidingC + r • c.bindingC)).sum) := by
  induction l generalizing acc with
  | nil => simp [groupCommitmentAux]
  | cons c l ih =>
      simp only [groupCommitmentAux]
      by_cases hc : (0 : E) = c.bindingC ∨ (0 : E) = c.hidingC
      · rw [if_pos hc, if_pos]
        refine ⟨c, List.mem_cons_self _ _, ?_⟩
        rcases hc with h | h
        · exact Or.inr h.symm
        · exact Or.inl h.symm
      · rw [if_neg hc, ih]
        by_cases hex : ∃ x ∈ l, x.hidingC = 0 ∨ x.bindingC = 0
        · rw [if_pos hex, if_pos]
          obtain ⟨x, hx, hbad⟩ := hex
          exact ⟨x, List.mem_cons_of_mem _ hx, hbad⟩
        · rw [if_neg hex, if_neg]
          · rw [List.map_cons, List.sum_cons, add_assoc]
          · rintro ⟨x, hx, hbad⟩
            rcases List.mem_cons.mp hx with rfl | hx
            · rcases hbad with h | h
              · exact hc (Or.inr h.symm)
              · exact hc (Or.inl h.symm)
            · exact hex ⟨x, hx, hbad⟩

end GroupCommitmentLemmas

section ClaimsBasic

variable {F : Type} [Field F] [DecidableEq F]
variable {E : Type} [AddCommGroup E] [DecidableEq E] [Module F E]

/-- C4: computing the group commitment from a signing package fails with
the identity-commitment error exactly when some commitment in the
package has its hiding element D or binding element E equal to the group
identity, and otherwise succeeds returning the sum over all
participating commitments of D_i + rho * E_i. -/
theorem C4_group_commitment_characterization (cs : CSuite F E)
    (pkg : SigningPackage E) :
    groupCommitment cs pkg =
      if ∃ c ∈ signingCommitments pkg, c.hidingC = 0 ∨ c.bindingC = 0 then
        Outcome.err "Commitment equals the identity."
      else
        Outcome.ok (((signingCommitments pkg).map
          (fun c => c.hidingC + (rho cs pkg) • c.bindingC)).sum) := by
  rw [groupCommitment, groupCommitmentAux_eq]
  simp

/-- C10: for a signing package with an empty commitment list the group
commitment computation succeeds and returns the identity, and aggregate
with an empty share list returns Ok with R the identity and z zero, for
any public key package; no identity check is performed on the
aggregated R. -/
theorem C10_empty_package_aggregates (cs : CSuite F E) (m : List Nat)
    (pks : PubKeyPackage E) :
    groupCommitment cs (SigningPackage.new [] m) = Outcome.ok 0 ∧
      aggregate cs (SigningPackage.new [] m) [] pks =
        Outcome.ok { R := 0, z := 0 } :=
  ⟨rfl, rfl⟩

/-- C2: there is no identifier-set comparison between shares and
commitments in aggregate; a signature share whose identifier has no
commitment in the signing package makes aggregate panic at the HashMap
indexing inside signing_commitment, instead of returning a
MismatchedShares error: here the package commits only participant 1
while the share list carries participant 3, which is present in the
public key package. -/
theorem C2_unmatched_share_panics :
    aggregate csTest (SigningPackage.new [⟨1, 1, 1⟩] []) [⟨3, 0⟩]
      ⟨[(1, 1), (3, 1)], 1⟩ = Outcome.panic "index: signing_commitment" := by
  decide

/-- C3: a signature share whose identifier has no verifying share in
the public key package makes aggregate panic at the unwrap of the
signer-pubkey lookup, instead of returning an UnknownIdentifier error:
here the share of participant 2 is aggregated against a public key
package that only knows participant 1. -/
theorem C3_unknown_identifier_panics :
    aggregate csTest (SigningPackage.new [⟨1, 1, 1⟩, ⟨2, 1, 1⟩] [])
      [⟨2, 0⟩] ⟨[(1, 1)], 1⟩ = Outcome.panic "unwrap: signer_pubkey" := by
  decide

end ClaimsBasic

section LagrangeLemmas

variable {F : Type} [Field F] [DecidableEq F] {E : Type}

theorem scanCommitmentIds_ok (l : List (SC E))
    (h : ∀ c ∈ l, c.index ≠ 0 ∧ ((c.index : F)) ≠ 0) :
    scanCommitmentIds (F := F) l = Outcome.ok () := by
  induction l with
  | nil => rfl
  | cons c l ih =>
      obtain ⟨h0, hf⟩ := h c (List.mem_cons_self _ _)
      simp only [scanCommitmentIds, if_neg h0, if_neg hf]
      exact ih (fun x hx => h x (List.mem_cons_of_mem _ hx))

theorem foldl_mul_map {M : Type} [CommMonoid M] (f : SC E → M)
    (l : List (SC E)) (a : M) :
    l.foldl (fun acc c => acc * f c) a = a * (l.map f).prod := by
  induction l generalizing a with
  | nil => simp
  | cons c l ih => simp [ih, mul_assoc]

theorem outcome_ok_mul_inv {N D c d : F} (hD : D = d)
    (hd : d ≠ 0) (hN : N = c * d) :
    Outcome.ok (N * D⁻¹) = Outcome.ok c := by
  subst hD
  subst hN
  rw [mul_inv_cancel_right₀ hd]

theorem map_index_filter (l : List (SC E)) (i : Nat) :
    (l.filter (fun c => c.index ≠ i)).map SC.index
      = (l.map SC.index).filter (· ≠ i) := by
  induction l with
  | nil => rfl
  | cons c l ih =>
      by_cases h : c.index = i <;>
        simp only [ne_eq, decide_not, List.filter_cons, List.map_cons] at ih ⊢ <;>
        simp [h, ih]

end LagrangeLemmas

section ClaimsLagrange

variable {F : Type} [Field F] [DecidableEq F] {E : Type}

/-- C5: for a signing package whose commitment indices are pairwise
distinct u16 values, all nonzero, containing the signer index i, and
with the field characteristic exceeding every u16 (as it does for the
ecGFp5 scalar field), derive_lagrange_coeff returns Ok of the product of
the other identifiers i_j, multiplied by the field inverse of the
product of the differences i_j - i, all arithmetic in the scalar
field F. -/
theorem C5_lagrange_coeff_formula (i : Nat) (pkg : SigningPackage E)
    (hchar : ∀ n : Nat, 0 < n → n < 65536 → ((n : F)) ≠ 0)
    (hnd : ((signingCommitments pkg).map SC.index).Nodup)
    (h0 : ∀ j ∈ (signingCommitments pkg).map SC.index, j ≠ 0)
    (hbound : ∀ j ∈ (signingCommitments pkg).map SC.index, j < 65536)
    (hmem : i ∈ (signingCommitments pkg).map SC.index) :
    deriveLagrangeCoeff (F := F) i pkg =
      Outcome.ok
        (((((signingCommitments pkg).map SC.index).filter (· ≠ i)).map
            (fun j : Nat => (j : F))).prod *
          ((((signingCommitments pkg).map SC.index).filter (· ≠ i)).map
            (fun j : Nat => (j : F) - (i : F))).prod⁻¹) := by
  have hinj : ∀ a ∈ (signingCommitments pkg).map SC.index,
      ∀ b ∈ (signingCommitments pkg).map SC.index, (a : F) = (b : F) → a = b := by
    intro a ha b hb hab
    by_contra hne
    rcases Nat.lt_or_ge a b with h | h
    · have : ((b - a : Nat) : F) ≠ 0 :=
        hchar _ (by omega) (by have := hbound b hb; omega)
      apply this
      rw [Nat.cast_sub (Nat.le_of_lt h), hab, sub_self]
    · have hlt : b < a := Nat.lt_of_le_of_ne h (fun hc => hne hc.symm)
      have : ((a - b : Nat) : F) ≠ 0 :=
        hchar _ (by omega) (by have := hbound a ha; omega)
      apply this
      rw [Nat.cast_sub (Nat.le_of_lt hlt), hab, sub_self]
  have hf0 : ∀ j ∈ (signingCommitments pkg).map SC.index, ((j : F)) ≠ 0 := by
    intro j hj
    exact hchar j (Nat.pos_of_ne_zero (h0 j hj)) (hbound j hj)
  have hi0 : i ≠ 0 := h0 i hmem
  have hif : ((i : F)) ≠ 0 := hf0 i hmem
  have hscan : scanCommitmentIds (F := F) (signingCommitments pkg)
      = Outcome.ok () := by
    refine scanCommitmentIds_ok _ (fun c hc => ?_)
    have hcidx := List.mem_map_of_mem SC.index hc
    exact ⟨h0 _ hcidx, hf0 _ hcidx⟩
  have hden :
      ((signingCommitments pkg).filter (fun c => c.index ≠ i)).foldl
          (fun acc c => acc * ((c.index : F) - (i : F))) 1
        = ((((signingCommitments pkg).map SC.index).filter (· ≠ i)).map
            (fun j : Nat => (j : F) - (i : F))).prod := by
    rw [foldl_mul_map, one_mul, ← map_index_filter, List.map_map]
    rfl
  have hnum :
      ((signingCommitments pkg).filter (fun c => c.index ≠ i)).foldl
          (fun acc c => acc * ((c.index : F))) 1
        = ((((signingCommitments pkg).map SC.index).filter (· ≠ i)).map
            (fun j : Nat => (j : F))).prod := by
    rw [foldl_mul_map, one_mul, ← map_index_filter, List.map_map]
    rfl
  have hdne :
      ((((signingCommitments pkg).map SC.index).filter (· ≠ i)).map
          (fun j : Nat => (j : F) - (i : F))).prod ≠ 0 := by
    refine List.prod_ne_zero ?_
    intro hzero
    rcases List.mem_map.mp hzero with ⟨j, hj, hj0⟩
    have hjmem := List.mem_of_mem_filter hj
    have hjne : j ≠ i := by simpa using List.of_mem_filter hj
    have hji : (j : F) = (i : F) := by rwa [sub_eq_zero] at hj0
    exact hjne (hinj j hjmem i hmem hji)
  simp only [deriveLagrangeCoeff, if_neg hi0, if_neg hif, hscan]
  simp only [hden, hnum, if_neg hdne, fieldInvert, if_neg hdne]

/-- C5 witness: the generic theorem evaluated for the package over the
small prime field with commitments at indices 1, 2, 3 and signer 2. -/
theorem C5_lagrange_coeff_formula_witness :
    deriveLagrangeCoeff (F := Ft) 2
        (SigningPackage.new [⟨1, (5 : Ft), 6⟩, ⟨2, 7, 8⟩, ⟨3, 9, 10⟩] []) =
      Outcome.ok (65534 : Ft) :=
  (C5_lagrange_coeff_formula 2
      (SigningPackage.new [⟨1, (5 : Ft), 6⟩, ⟨2, 7, 8⟩, ⟨3, 9, 10⟩] [])
      (fun n hpos hlt hz => by
        have hdvd := (ZMod.natCast_zmod_eq_zero_iff_dvd n 65537).mp hz
        have hle := Nat.le_of_dvd hpos hdvd
        omega)
      (by decide) (by decide) (by decide) (by decide)).trans
    (outcome_ok_mul_inv (d := (-1 : Ft)) (by decide) (by decide) (by decide))

/-- C6: a zero denominator product in derive_lagrange_coeff is reported
as the duplicate-shares error, never a panic: for every signer and
package the function never reaches the panic at the unwrap of the field
inversion, and whenever the denominator product over the package is zero
while the earlier identifier checks pass, the function returns the Err
for duplicate shares. -/
theorem C6_zero_denominator_is_error_not_panic (i : Nat)
    (pkg : SigningPackage E) :
    deriveLagrangeCoeff (F := F) i pkg ≠ Outcome.panic "unwrap: invert" ∧
      (i ≠ 0 → ((i : F)) ≠ 0 →
        (∀ c ∈ signingCommitments pkg, c.index ≠ 0 ∧ ((c.index : F)) ≠ 0) →
        ((signingCommitments pkg).filter (fun c => c.index ≠ i)).foldl
            (fun acc c => acc * ((c.index : F) - (i : F))) 1 = 0 →
        deriveLagrangeCoeff (F := F) i pkg
          = Outcome.err "Duplicate shares provided") := by
  constructor
  · simp only [deriveLagrangeCoeff]
    split
    · simp
    · split
      · simp
      · match hscan : scanCommitmentIds (F := F) (signingCommitments pkg) with
        | .panic s =>
            simp only [hscan]
            intro h
            rw [Outcome.panic.injEq] at h
            subst h
            revert hscan
            generalize signingCommitments pkg = l
            induction l with
            | nil => simp [scanCommitmentIds]
            | cons c l ih =>
                simp only [scanCommitmentIds]
                split
                · simp
                · split
                  · simp
                  · exact ih
        | .err s => simp [hscan]
        | .ok u =>
            simp only [hscan]
            split
            · simp
            · next hden =>
                simp only [fieldInvert, if_neg hden]
                simp
  · intro hi0 hif hids hden
    have hscan : scanCommitmentIds (F := F) (signingCommitments pkg)
        = Outcome.ok () := scanCommitmentIds_ok _ hids
    simp only [deriveLagrangeCoeff, if_neg hi0, if_neg hif, hscan]
    simp only [hden]
    simp

/-- C6 witness: over the field with 97 elements the u16 indices 1 and 98
collide, producing a zero denominator; the theorem then yields the
duplicate-shares error, and in particular no panic. -/
theorem C6_zero_denominator_is_error_not_panic_witness :
    deriveLagrangeCoeff (F := ZMod 97) 1
        (SigningPackage.new [⟨1, (0 : ZMod 97), 0⟩, ⟨98, 0, 0⟩] [])
      = Outcome.err "Duplicate shares provided" :=
  (C6_zero_denominator_is_error_not_panic (F := ZMod 97) 1
      (SigningPackage.new [⟨1, (0 : ZMod 97), 0⟩, ⟨98, 0, 0⟩] [])).2
    (by decide) (by decide) (by decide) (by decide)

end ClaimsLagrange

section PackageLemmas

variable {E : Type}

theorem sortByIndex_strict_of_nodup {v : List (SC E)}
    (hnd : (v.map SC.index).Nodup) :
    (sortByIndex v).Pairwise (fun a b => a.index < b.index) := by
  have hpermmap : ((sortByIndex v).map SC.index).Perm (v.map SC.index) :=
    (sortByIndex_perm v).map SC.index
  have hnds : ((sortByIndex v).map SC.index).Nodup := hpermmap.nodup_iff.mpr hnd
  have hne : (sortByIndex v).Pairwise (fun a b => a.index ≠ b.index) :=
    List.pairwise_map.mp hnds
  exact ((sortByIndex_pairwise v).and hne).imp
    (fun h => lt_of_le_of_ne h.1 h.2)

theorem signingCommitments_new_of_nodup {v : List (SC E)} {m : List Nat}
    (hnd : (v.map SC.index).Nodup) :
    signingCommitments (SigningPackage.new v m) = sortByIndex v := by
  have hstrict := sortByIndex_strict_of_nodup hnd
  show sortByIndex ((mkMap (sortByIndex v)).map Prod.snd) = sortByIndex v
  rw [mkMap_of_strictSorted hstrict, List.map_map]
  have hid : (sortByIndex v).map (Prod.snd ∘ fun s => (s.index, s))
      = sortByIndex v := List.map_id _
  rw [hid, sortByIndex_eq_self hstrict]

end PackageLemmas

section ClaimsPackage

variable {F : Type} {E : Type}

/-- C1 (amended): the rho preimage is the concatenation, in ascending
identifier order, of serialize(i), serialize(D_i), serialize(E_i) over
the package commitments, followed by the bytes contributed by H3 of the
message (the nonce tagged hash-to-scalar of the ciphersuite), and rho is
H1 of that preimage; the message digest hash is H3, not the com tagged
H5 asserted by the claim. -/
theorem C1_rho_preimage_encode_then_H3 (cs : CSuite F E)
    (v : List (SC E)) (m : List Nat)
    (hnd : (v.map SC.index).Nodup) :
    rho cs (SigningPackage.new v m)
        = cs.H1 (encodeGroupCommitments cs (sortByIndex v) ++ cs.H3d m) ∧
      (sortByIndex v).Pairwise (fun a b => a.index ≤ b.index) := by
  constructor
  · rw [rho, rhoPreimage, signingCommitments_new_of_nodup hnd]
    rfl
  · exact sortByIndex_pairwise v

set_option maxRecDepth 8000 in
/-- C1 witness: the amended statement evaluated on a concrete
two-commitment vector over the small test ciphersuite. -/
theorem C1_rho_preimage_encode_then_H3_witness :
    rho csTest (SigningPackage.new [⟨2, (7 : Ft), 8⟩, ⟨1, 5, 6⟩] [9])
        = csTest.H1 (encodeGroupCommitments csTest
            (sortByIndex [⟨2, (7 : Ft), 8⟩, ⟨1, 5, 6⟩]) ++ csTest.H3d [9]) ∧
      (sortByIndex [⟨2, (7 : Ft), 8⟩, ⟨1, 5, 6⟩]).Pairwise
        (fun a b => a.index ≤ b.index) :=
  C1_rho_preimage_encode_then_H3 csTest [⟨2, (7 : Ft), 8⟩, ⟨1, 5, 6⟩] [9]
    (by decide)

set_option maxRecDepth 40000 in
/-- C1 counterexample: under the symbolic hash model of the ecGFp5
ciphersuite, rho of a concrete one-commitment package is not H1 of the
encoded commitment list followed by the com tagged digest H5 of the
message, because the code appends the nonce tagged H3 of the message to
the preimage instead. -/
theorem C1_rho_is_not_H1_of_H5_counterexample :
    rho EcGFp5.csSym (SigningPackage.new [⟨1, 2, 3⟩] (strBytes "msg"))
      ≠ EcGFp5.rhoSpecH5 (SigningPackage.new [⟨1, 2, 3⟩] (strBytes "msg")) := by
  decide

/-- C8 (amended): for commitment vectors with pairwise distinct
participant indices, package construction does not depend on insertion
order: a permuted vector yields the identical package, hence the same
commitment list (sorted ascending by participant index) and the same
rho preimage and rho. -/
theorem C8_permutation_invariance_of_nodup (cs : CSuite F E)
    {v v' : List (SC E)} (m : List Nat) (hp : v.Perm v')
    (hnd : (v.map SC.index).Nodup) :
    SigningPackage.new v m = SigningPackage.new v' m ∧
      signingCommitments (SigningPackage.new v m)
        = signingCommitments (SigningPackage.new v' m) ∧
      (signingCommitments (SigningPackage.new v m)).Pairwise
        (fun a b => a.index ≤ b.index) ∧
      rhoPreimage cs (SigningPackage.new v m)
        = rhoPreimage cs (SigningPackage.new v' m) ∧
      rho cs (SigningPackage.new v m) = rho cs (SigningPackage.new v' m) := by
  have hmap := mkMap_sort_perm_eq hp hnd
  have hpkg : SigningPackage.new v m = SigningPackage.new v' m := by
    rw [SigningPackage.new, SigningPackage.new, hmap]
  exact ⟨hpkg, by rw [hpkg], sortByIndex_pairwise _, by rw [hpkg], by rw [hpkg]⟩

/-- C8 witness: the amended statement evaluated on a concrete swapped
pair of commitments with distinct indices over the test ciphersuite. -/
theorem C8_permutation_invariance_of_nodup_witness :
    SigningPackage.new [⟨2, (7 : Ft), 8⟩, ⟨1, 5, 6⟩] []
        = SigningPackage.new [⟨1, (5 : Ft), 6⟩, ⟨2, 7, 8⟩] [] ∧
      signingCommitments (SigningPackage.new [⟨2, (7 : Ft), 8⟩, ⟨1, 5, 6⟩] [])
        = signingCommitments (SigningPackage.new [⟨1, (5 : Ft), 6⟩, ⟨2, 7, 8⟩] []) ∧
      (signingCommitments (SigningPackage.new [⟨2, (7 : Ft), 8⟩, ⟨1, 5, 6⟩] [])).Pairwise
        (fun a b => a.index ≤ b.index) ∧
      rhoPreimage csTest (SigningPackage.new [⟨2, (7 : Ft), 8⟩, ⟨1, 5, 6⟩] [])
        = rhoPreimage csTest (SigningPackage.new [⟨1, (5 : Ft), 6⟩, ⟨2, 7, 8⟩] []) ∧
      rho csTest (SigningPackage.new [⟨2, (7 : Ft), 8⟩, ⟨1, 5, 6⟩] [])
        = rho csTest (SigningPackage.new [⟨1, (5 : Ft), 6⟩, ⟨2, 7, 8⟩] []) :=
  C8_permutation_invariance_of_nodup csTest []
    (List.Perm.swap (⟨1, (5 : Ft), 6⟩ : SC Ft) (⟨2, 7, 8⟩ : SC Ft) [])
    (by decide)

/-- C8 counterexample: two permuted vectors that duplicate the
participant index 1 with different commitment values are observably
different: the map keeps the last value inserted for a key, so the
surviving commitment depends on insertion order. -/
theorem C8_permutation_counterexample :
    ([⟨1, (20 : Ft), 21⟩, ⟨1, 10, 11⟩] : List (SC Ft)).Perm
        [⟨1, (10 : Ft), 11⟩, ⟨1, 20, 21⟩] ∧
      signingCommitments (SigningPackage.new [⟨1, (20 : Ft), 21⟩, ⟨1, 10, 11⟩] [])
        ≠ signingCommitments (SigningPackage.new [⟨1, (10 : Ft), 11⟩, ⟨1, 20, 21⟩] []) :=
  ⟨List.Perm.swap (⟨1, (10 : Ft), 11⟩ : SC Ft) (⟨1, (20 : Ft), 21⟩ : SC Ft) [],
    by decide⟩

/-- C9: package construction signals no error on duplicate participant
indices; the map silently keeps exactly one commitment per index, each
kept commitment being one of those supplied, every supplied index
remaining present, and rebuilding a package from the kept commitments
yields the identical package. -/
theorem C9_duplicate_indices_silently_collapse (v : List (SC E)) (m : List Nat) :
    ((signingCommitments (SigningPackage.new v m)).map SC.index).Nodup ∧
      (∀ c ∈ signingCommitments (SigningPackage.new v m), c ∈ v) ∧
      (∀ i : Nat, i ∈ (signingCommitments (SigningPackage.new v m)).map SC.index
          ↔ i ∈ v.map SC.index) ∧
      SigningPackage.new (signingCommitments (SigningPackage.new v m)) m
        = SigningPackage.new v m := by
  have hpw := mkMap_pairwise (sortByIndex v)
  have hidx := mkMap_snd_index (sortByIndex v)
  have hval := mkMap_val_mem (sortByIndex v)
  have hw : signingCommitments (SigningPackage.new v m)
      = (mkMap (sortByIndex v)).map Prod.snd :=
    signingCommitments_eq_values hpw hidx
  have hkeys : (signingCommitments (SigningPackage.new v m)).map SC.index
      = (mkMap (sortByIndex v)).map Prod.fst := by
    rw [hw, List.map_map]
    exact List.map_congr_left (fun p hp => hidx p hp)
  refine ⟨?_, ?_, ?_, ?_⟩
  · rw [hkeys]
    exact (List.pairwise_map.mpr (hpw.imp (fun h => Nat.ne_of_lt h)))
  · intro c hc
    rw [hw] at hc
    rcases List.mem_map.mp hc with ⟨p, hp, rfl⟩
    exact (sortByIndex_perm v).mem_iff.mp (hval p hp)
  · intro i
    rw [hkeys, mkMap_keys]
    exact ((sortByIndex_perm v).map SC.index).mem_iff
  · have hstrictw : (signingCommitments (SigningPackage.new v m)).Pairwise
        (fun a b => a.index < b.index) := by
      rw [hw]
      exact map_snd_pairwise hpw hidx
    show SigningPackage.mk
        (mkMap (sortByIndex (signingCommitments (SigningPackage.new v m)))) m
      = SigningPackage.mk (mkMap (sortByIndex v)) m
    rw [sortByIndex_eq_self hstrictw, hw, mkMap_of_strictSorted
      (by rw [← hw]; exact hstrictw), List.map_map]
    congr 1
    refine (List.map_congr_left ?_).trans (List.map_id _)
    intro p hp
    show (p.2.index, p.2) = p
    rw [hidx p hp]

end ClaimsPackage

end Frost

namespace EcGFp5

open Frost

instance : NeZero ecGFp5Order := ⟨by norm_num [ecGFp5Order]⟩

theorem ecGFp5Order_lt : ecGFp5Order < 256 ^ 40 := by
  norm_num [ecGFp5Order]

/-- C7 scalar part as a standalone lemma: deserialization inverts
serialization on every scalar of the ecGFp5 scalar field. -/
theorem scalar_roundtrip (x : EcScalar) :
    scalarDeserialize (scalarSerialize x) = Except.ok x := by
  have hlt : x.val < ecGFp5Order := ZMod.val_lt x
  have hlen : (leBytes 40 x.val).length = 40 := leBytes_length 40 x.val
  have hval : fromLeBytes (leBytes 40 x.val) = x.val :=
    fromLeBytes_leBytes_of_lt (lt_of_lt_of_le hlt (le_of_lt ecGFp5Order_lt))
  rw [scalarSerialize, scalarDeserialize, if_pos ⟨hlen, by rw [hval]; exact hlt⟩,
    hval, ZMod.natCast_val, ZMod.cast_id]

theorem flatten_map_leBytes_length (l : List Nat) :
    ((l.map (leBytes 8)).flatten).length = 8 * l.length := by
  induction l with
  | nil => simp
  | cons a t ih =>
      simp [leBytes_length, ih, Nat.mul_succ, Nat.add_comm]

theorem readLimbs_encode (l : List Nat) (hlt : ∀ x ∈ l, x < goldilocksP) :
    readLimbs l.length ((l.map (leBytes 8)).flatten) = some l := by
  induction l with
  | nil => rfl
  | cons a t ih =>
      have ha : a < goldilocksP := hlt a (List.mem_cons_self _ _)
      have ha8 : a < 256 ^ 8 := lt_of_lt_of_le ha (by norm_num [goldilocksP])
      have hlen8 : (leBytes 8 a).length = 8 := leBytes_length 8 a
      show readLimbs (t.length + 1)
        (leBytes 8 a ++ (t.map (leBytes 8)).flatten) = some (a :: t)
      simp only [readLimbs]
      rw [if_neg (by simp [hlen8, flatten_map_leBytes_length])]
      rw [List.take_left' hlen8, List.drop_left' hlen8,
        fromLeBytes_leBytes_of_lt ha8, if_pos ha,
        ih (fun x hx => hlt x (List.mem_cons_of_mem _ hx))]

/-- C7 group part as a standalone lemma: point decoding inverts point
encoding for every modelled point. -/
theorem pointFromLeBytes_toLeBytes (p : EcPoint) :
    pointFromLeBytes (pointToLeBytes p) = some p := by
  obtain ⟨l, hl5, hlall⟩ := p
  have hlt : ∀ x ∈ l, x < goldilocksP := by
    intro x hx
    have := List.all_eq_true.mp hlall x hx
    simpa using this
  have hlen : (pointToLeBytes ⟨l, hl5, hlall⟩).length = 40 := by
    show ((l.map (leBytes 8)).flatten).length = 40
    rw [flatten_map_leBytes_length, hl5]
  have hread : readLimbs 5 (pointToLeBytes ⟨l, hl5, hlall⟩) = some l := by
    show readLimbs 5 ((l.map (leBytes 8)).flatten) = some l
    rw [← hl5]
    exact readLimbs_encode l hlt
  rw [pointFromLeBytes, dif_pos hlen]
  split
  · next limbs hr =>
      rw [hread] at hr
      cases hr
      rfl
  · next hr =>
      rw [hread] at hr
      cases hr

/-- C7: for the ecGFp5 ciphersuite, deserialization is a left inverse
of serialization on non-identity values: scalar deserialization inverts
scalar serialization on every scalar; group deserialization inverts
group serialization on every non-neutral point; the serialization of the
neutral point deserializes to the InvalidIdentityElement error, an error
distinct from the MalformedElement error used for undecodable bytes. -/
theorem C7_serialize_deserialize_roundtrip :
    (∀ x : EcScalar, scalarDeserialize (scalarSerialize x) = Except.ok x) ∧
      (∀ p : EcPoint, p ≠ neutralPoint →
        groupDeserialize (groupSerialize p) = Except.ok p) ∧
      groupDeserialize (groupSerialize neutralPoint)
        = Except.error GroupError.InvalidIdentityElement ∧
      GroupError.InvalidIdentityElement ≠ GroupError.MalformedElement := by
  refine ⟨scalar_roundtrip, ?_, ?_, by decide⟩
  · intro p hp
    have hnn : isNeutral p = false := by
      rw [isNeutral]
      simp only [decide_eq_false_iff_not]
      intro hval
      exact hp (Subtype.ext hval)
    rw [groupDeserialize, groupSerialize, pointFromLeBytes_toLeBytes]
    simp [hnn]
  · rw [groupDeserialize, groupSerialize,
      pointFromLeBytes_toLeBytes neutralPoint]
    rfl

/-- C7 witness: the roundtrip evaluated at a concrete non-neutral point
and at a concrete scalar. -/
theorem C7_serialize_deserialize_roundtrip_witness :
    ((⟨[1, 0, 0, 0, 0], by decide⟩ : EcPoint) ≠ neutralPoint) ∧
      groupDeserialize (groupSerialize (⟨[1, 0, 0, 0, 0], by decide⟩ : EcPoint))
        = Except.ok (⟨[1, 0, 0, 0, 0], by decide⟩ : EcPoint) ∧
      scalarDeserialize (scalarSerialize (2 : EcScalar)) = Except.ok 2 :=
  ⟨by decide,
    C7_serialize_deserialize_roundtrip.2.1 _ (by decide),
    C7_serialize_deserialize_roundtrip.1 2⟩

end EcGFp5
